import Mathlib

/-!
Verification of the `cache` library (files `policy.go` and the unnamed
local-cache file) against its specification.

The development is a shallow embedding:

* `policy.go`'s per-entry refresh coordination (`lockEntry` / `unlockEntry`,
  guarded by `refreshMu`) is modelled as a sequential state machine over the
  single guarded field `isRefreshing : Bool`.  The Go mutex makes each of the
  two operations atomic, so interleaved concurrent executions are exactly the
  sequential compositions modelled here.
* `policy.go`'s `newPolicy` `switch` is modelled with `Except`, `panic`
  becoming `Except.error` carrying the panic message.
* The local cache file keeps a map `cache : map[Key]*list.Element` and a
  doubly-linked recency list `entries` that every critical section updates
  together (insert both / remove both / clear both), so the two are always in
  sync; the embedding therefore represents the pair by a single Lean list of
  entries, front = most recently used, and derives map lookup from it
  (`lookupEntry`).  `currentTime` (`time.Now`) is modelled by a logical clock
  that ticks once per call.  Removal-listener invocations are the events an
  operation returns; Go iterates a map in unspecified order in
  `InvalidateAll`, which the embedding determinizes to list order.
-/

/-! ## Model of policy.go: refresh coordination -/

/-- Model of `entry.lockEntry`: under `refreshMu` it reads
`canRefresh := !en.isRefreshing`, sets `isRefreshing = true` and returns
`canRefresh`.  The state is the guarded `isRefreshing` field; the result is
`(returned value, new state)`. -/
def lockEntry (isRefreshing : Bool) : Bool × Bool :=
  (!isRefreshing, true)

/-- Model of `entry.unlockEntry`: under `refreshMu` it sets
`isRefreshing = false`, unconditionally. -/
def unlockEntry (_isRefreshing : Bool) : Bool :=
  false

/-- State of the refresh flag after `n` further `lockEntry` calls. -/
def afterLocks : Nat → Bool → Bool
  | 0, s => s
  | n + 1, s => afterLocks n (lockEntry s).2

theorem afterLocks_true (n : Nat) : afterLocks n true = true := by
  induction n with
  | zero => rfl
  | succ n ih => simpa [afterLocks, lockEntry] using ih

/-! ## Model of policy.go: policy construction -/

/-- The three concrete policy types `newPolicy` can return. -/
inductive PolicyKind where
  | slruCache
  | lruCache
  | tinyLFU
  deriving DecidableEq

/-- Model of `newPolicy`: the Go `switch` on the policy name.  `case "", "slru"`
yields the SLRU policy, `"lru"` the plain LRU policy, `"tinylfu"` TinyLFU, and
the default branch panics — modelled as `Except.error` with the panic
message, so no policy value accompanies a failure. -/
def newPolicy (name : String) : Except String PolicyKind :=
  if name = "" ∨ name = "slru" then Except.ok PolicyKind.slruCache
  else if name = "lru" then Except.ok PolicyKind.lruCache
  else if name = "tinylfu" then Except.ok PolicyKind.tinyLFU
  else Except.error ("cache: unsupported policy " ++ name)

/-! ## Theorems for the refresh-coordination claims -/

/-- C3: `lockEntry` (tryBeginRefresh) returns `true` iff the refresh state was
Idle (`isRefreshing = false`) at the call, and always leaves the state
Refreshing; after any `lockEntry` — in particular a successful one — every
further `lockEntry` performed before the matching `unlockEntry` returns
`false` (for any number `n` of intervening lock attempts); and after
`unlockEntry` a subsequent `lockEntry` returns `true` again. -/
theorem lockEntry_exclusion (s t : Bool) :
    ((lockEntry s).1 = true ↔ s = false)
    ∧ (lockEntry s).2 = true
    ∧ (∀ n : Nat, (lockEntry (afterLocks n (lockEntry s).2)).1 = false)
    ∧ (lockEntry (unlockEntry t)).1 = true := by
  refine ⟨by cases s <;> simp [lockEntry], by cases s <;> simp [lockEntry], ?_, by rfl⟩
  intro n
  have h : (lockEntry s).2 = true := by cases s <;> rfl
  rw [h, afterLocks_true]
  rfl

/-- C9: `unlockEntry` (endRefresh) unconditionally sets the refresh state to
Idle (`false`), whatever the previous state was — so calling it without a
matching successful `lockEntry` is harmless; it is idempotent (a second
consecutive call leaves the state unchanged); and it is a total function of
the state, so it never propagates a fault. -/
theorem unlockEntry_idempotent (s : Bool) :
    unlockEntry s = false
    ∧ unlockEntry (unlockEntry s) = unlockEntry s := by
  exact ⟨rfl, rfl⟩

/-! ## Theorems for the policy-construction claim -/

/-- C7 counterexample: the empty string is not one of `"lru"`, `"slru"`,
`"tinylfu"`, yet `newPolicy ""` does not fail — it returns the SLRU policy.
This refutes the claim that every name outside those three fails fast. -/
theorem newPolicy_empty_counterexample :
    ("" ≠ "lru" ∧ "" ≠ "slru" ∧ "" ≠ "tinylfu")
    ∧ newPolicy "" = Except.ok PolicyKind.slruCache := by
  exact ⟨⟨by decide, by decide, by decide⟩, rfl⟩

/-- C7 (amended): for every policy name that is not one of `""`, `"lru"`,
`"slru"`, `"tinylfu"`, construction fails fast — `newPolicy` aborts with the
panic message and returns no policy value — while the empty string and the
three recognized names never fail. -/
theorem newPolicy_fails_fast (name : String) :
    (name ≠ "" ∧ name ≠ "lru" ∧ name ≠ "slru" ∧ name ≠ "tinylfu" →
      newPolicy name = Except.error ("cache: unsupported policy " ++ name))
    ∧ (name = "" ∨ name = "lru" ∨ name = "slru" ∨ name = "tinylfu" →
      ∃ p, newPolicy name = Except.ok p) := by
  constructor
  · rintro ⟨h1, h2, h3, h4⟩
    simp [newPolicy, h1, h2, h3, h4]
  · rintro (h | h | h | h) <;> subst h <;> exact ⟨_, rfl⟩

/-- C7 witness: at the concrete unrecognized name `"fifo"`, construction
fails with the panic message, and the recognized name `"lru"` succeeds. -/
theorem newPolicy_fails_fast_witness :
    newPolicy "fifo" = Except.error ("cache: unsupported policy " ++ "fifo")
    ∧ ∃ p, newPolicy "lru" = Except.ok p := by
  exact ⟨(newPolicy_fails_fast "fifo").1 (by refine ⟨?_, ?_, ?_, ?_⟩ <;> decide),
    (newPolicy_fails_fast "lru").2 (by simp)⟩

/-! ## Model of the local cache file -/

section LocalCacheModel

variable {Key Value : Type} [DecidableEq Key]

/-- Model of the cache `entry` struct of the local-cache file: key, value and
`lastAccess` timestamp (clock ticks of the logical clock replacing
`time.Now`). -/
structure Entry (Key Value : Type) where
  key : Key
  value : Value
  lastAccess : Nat
  deriving DecidableEq

/-- Model of `localCache`: `maximumSize` (a Go `int`, compared but never
arithmetically combined, hence `Int`), whether an `onRemoval` listener is
configured, the recency list `entries` (front = most recently used; the
`cache` map is derived from it, see the header note on their sync), and the
logical clock standing for `currentTime`. -/
structure LocalCache (Key Value : Type) where
  maximumSize : Int
  onRemoval : Bool
  entries : List (Entry Key Value)
  clock : Nat

/-- Lookup in the `cache` map: the entry of the unique list element holding
key `k` (the map and the list are updated together in every critical
section, so map lookup is lookup in the entries list). -/
def lookupEntry (k : Key) : List (Entry Key Value) → Option (Entry Key Value)
  | [] => none
  | e :: l => if e.key = k then some e else lookupEntry k l

/-- Remove the list element holding key `k` (mirrors `c.entries.Remove(el)`
together with `delete(c.cache, k)`): drops the first entry with that key. -/
def eraseKey (k : Key) : List (Entry Key Value) → List (Entry Key Value)
  | [] => []
  | e :: l => if e.key = k then l else e :: eraseKey k l

/-- Model of `localCache.GetIfPresent`: look the key up; on a miss return
absent and leave the cache unchanged; on a hit set the entry's `lastAccess`
to the current time, move its element to the front of the recency list, and
return its value. -/
def GetIfPresent (k : Key) (c : LocalCache Key Value) :
    Option Value × LocalCache Key Value :=
  match lookupEntry k c.entries with
  | none => (none, c)
  | some en =>
      (some en.value,
        ⟨c.maximumSize, c.onRemoval,
          ⟨en.key, en.value, c.clock⟩ :: eraseKey k c.entries, c.clock + 1⟩)

/-- Model of `localCache.removeOldest`: take the back element of the recency
list, unlink it and delete its key from the map, returning the removed
entry; on an empty list return nothing. -/
def removeOldest (l : List (Entry Key Value)) :
    Option (Entry Key Value) × List (Entry Key Value) :=
  match l.getLast? with
  | none => (none, l)
  | some en => (some en, l.dropLast)

/-- Model of `localCache.Put`: on a hit, overwrite the entry's value, refresh
`lastAccess` and move the element to the front.  On a miss, push a fresh
entry to the front; if `maximumSize` is positive and the list length now
exceeds it, `removeOldest` evicts the back entry, which is reported to the
removal listener (when one is configured) after the locks are released.
The second component is the list of listener invocations the call performs. -/
def Put (k : Key) (v : Value) (c : LocalCache Key Value) :
    LocalCache Key Value × List (Key × Value) :=
  match lookupEntry k c.entries with
  | some _ =>
      (⟨c.maximumSize, c.onRemoval,
        ⟨k, v, c.clock⟩ :: eraseKey k c.entries, c.clock + 1⟩, [])
  | none =>
      let entries' : List (Entry Key Value) := ⟨k, v, c.clock⟩ :: c.entries
      if 0 < c.maximumSize ∧ c.maximumSize < (entries'.length : Int) then
        match removeOldest entries' with
        | (some remEn, rest) =>
            (⟨c.maximumSize, c.onRemoval, rest, c.clock + 1⟩,
              if c.onRemoval then [(remEn.key, remEn.value)] else [])
        | (none, rest) =>
            (⟨c.maximumSize, c.onRemoval, rest, c.clock + 1⟩, [])
      else
        (⟨c.maximumSize, c.onRemoval, entries', c.clock + 1⟩, [])

/-- Model of `localCache.Invalidate`: if the key is absent do nothing;
otherwise unlink its element, delete the key from the map, and invoke the
removal listener (when configured) with the entry's key and value. -/
def Invalidate (k : Key) (c : LocalCache Key Value) :
    LocalCache Key Value × List (Key × Value) :=
  match lookupEntry k c.entries with
  | none => (c, [])
  | some en =>
      (⟨c.maximumSize, c.onRemoval, eraseKey k c.entries, c.clock⟩,
        if c.onRemoval then [(en.key, en.value)] else [])

/-- Model of `localCache.InvalidateAll`: swap in a fresh map and list, then
invoke the removal listener (when configured) once per previously-live
entry.  Go iterates the old map in unspecified order; the model determinizes
that to the recency-list order. -/
def InvalidateAll (c : LocalCache Key Value) :
    LocalCache Key Value × List (Key × Value) :=
  (⟨c.maximumSize, c.onRemoval, [], c.clock⟩,
    if c.onRemoval then c.entries.map (fun en => (en.key, en.value)) else [])

/-- The public mutating operations of the local cache. -/
inductive Op (Key Value : Type) where
  | put (k : Key) (v : Value)
  | getIfPresent (k : Key)
  | invalidate (k : Key)
  | invalidateAll
  deriving DecidableEq

/-- One operation applied to a cache: resulting state and the listener
invocations it performs. -/
def step : Op Key Value → LocalCache Key Value → LocalCache Key Value × List (Key × Value)
  | Op.put k v, c => Put k v c
  | Op.getIfPresent k, c => ((GetIfPresent k c).2, [])
  | Op.invalidate k, c => Invalidate k c
  | Op.invalidateAll, c => InvalidateAll c

/-- A sequence of operations applied in order: final state and the
concatenation of all listener invocations. -/
def run : List (Op Key Value) → LocalCache Key Value → LocalCache Key Value × List (Key × Value)
  | [], c => (c, [])
  | op :: ops, c =>
      ((run ops (step op c).1).1, (step op c).2 ++ (run ops (step op c).1).2)

/-- The operation list performing the given sequence of `Put` calls. -/
def putsOf (ps : List (Key × Value)) : List (Op Key Value) :=
  ps.map (fun p => Op.put p.1 p.2)

/-- Model of `defaultMaximumSize = 1<<31 - 1`. -/
def defaultMaximumSize : Int := 2 ^ 31 - 1

/-- Model of `newLocalCache`: default maximum size, no removal listener, an
empty map and entries list. -/
def newLocalCache : LocalCache Key Value :=
  ⟨defaultMaximumSize, false, [], 0⟩

/-- The construction options of the local cache file (`Option` in Go, renamed
to avoid the Lean `Option` type): `WithMaximumSize` stores the given size
(any non-positive number meaning unlimited), `WithRemovalListener`
configures the removal listener. -/
inductive CacheOption where
  | withMaximumSize (size : Int)
  | withRemovalListener
  deriving DecidableEq

/-- Applying one option to the cache under construction. -/
def applyOption : CacheOption → LocalCache Key Value → LocalCache Key Value
  | CacheOption.withMaximumSize size, c =>
      ⟨size, c.onRemoval, c.entries, c.clock⟩
  | CacheOption.withRemovalListener, c =>
      ⟨c.maximumSize, true, c.entries, c.clock⟩

/-- Model of `New`: start from `newLocalCache` and apply the options in
order. -/
def New (opts : List CacheOption) : LocalCache Key Value :=
  opts.foldl (fun c o => applyOption o c) newLocalCache

end LocalCacheModel

/-! ## Basic lemmas about lookup and erasure -/

section CacheLemmas

variable {Key Value : Type} [DecidableEq Key]

theorem lookupEntry_eq_none_iff {k : Key} {l : List (Entry Key Value)} :
    lookupEntry k l = none ↔ k ∉ l.map Entry.key := by
  induction l with
  | nil => simp [lookupEntry]
  | cons e l ih =>
    by_cases h : e.key = k
    · simp [lookupEntry, h]
    · simp [lookupEntry, h, ih, Ne.symm h]

theorem lookupEntry_eq_some {k : Key} {l : List (Entry Key Value)} {e : Entry Key Value}
    (h : lookupEntry k l = some e) : e.key = k ∧ e ∈ l := by
  induction l with
  | nil => simp [lookupEntry] at h
  | cons e' l ih =>
    by_cases h' : e'.key = k
    · rw [lookupEntry, if_pos h'] at h
      cases h
      exact ⟨h', List.mem_cons_self _ _⟩
    · rw [lookupEntry, if_neg h'] at h
      exact ⟨(ih h).1, List.mem_cons_of_mem _ (ih h).2⟩

theorem lookupEntry_of_mem_nodup {l : List (Entry Key Value)} {e : Entry Key Value}
    (hn : (l.map Entry.key).Nodup) (hm : e ∈ l) : lookupEntry e.key l = some e := by
  induction l with
  | nil => cases hm
  | cons e' l ih =>
    rcases List.mem_cons.mp hm with rfl | hm'
    · simp [lookupEntry]
    · have hne : e'.key ≠ e.key := by
        intro hEq
        rw [List.map_cons, List.nodup_cons] at hn
        exact hn.1 (hEq ▸ List.mem_map_of_mem Entry.key hm')
      rw [lookupEntry, if_neg hne]
      exact ih (by rw [List.map_cons, List.nodup_cons] at hn; exact hn.2) hm'

theorem eraseKey_sublist (k : Key) (l : List (Entry Key Value)) :
    List.Sublist (eraseKey k l) l := by
  induction l with
  | nil => simp [eraseKey]
  | cons e l ih =>
    by_cases h : e.key = k
    · rw [eraseKey, if_pos h]
      exact (List.Sublist.refl l).cons e
    · rw [eraseKey, if_neg h]
      exact ih.cons₂ e

theorem length_eraseKey {k : Key} {l : List (Entry Key Value)} {e : Entry Key Value}
    (h : lookupEntry k l = some e) : (eraseKey k l).length + 1 = l.length := by
  induction l with
  | nil => simp [lookupEntry] at h
  | cons e' l ih =>
    by_cases h' : e'.key = k
    · simp [eraseKey, h']
    · rw [lookupEntry, if_neg h'] at h
      simp [eraseKey, h', ih h]

theorem keys_eraseKey (k : Key) (l : List (Entry Key Value)) :
    (eraseKey k l).map Entry.key = (l.map Entry.key).erase k := by
  induction l with
  | nil => rfl
  | cons e l ih =>
    by_cases h : e.key = k
    · simp [eraseKey, h, List.erase_cons]
    · simp [eraseKey, h, List.erase_cons, ih]

theorem lookupEntry_sublist_none {k : Key} {l l' : List (Entry Key Value)}
    (hs : List.Sublist l' l) (h : lookupEntry k l = none) : lookupEntry k l' = none := by
  rw [lookupEntry_eq_none_iff] at h ⊢
  exact fun hm => h ((hs.map Entry.key).subset hm)

end CacheLemmas

/-! ## Preservation lemmas: configuration, run decomposition, construction -/

section Preservation

variable {Key Value : Type} [DecidableEq Key]

theorem Put_config (k : Key) (v : Value) (c : LocalCache Key Value) :
    (Put k v c).1.maximumSize = c.maximumSize
    ∧ (Put k v c).1.onRemoval = c.onRemoval := by
  rw [Put]
  rcases lookupEntry k c.entries with _ | en
  · dsimp only
    split
    · rcases h : removeOldest (⟨k, v, c.clock⟩ :: c.entries) with ⟨_ | remEn, rest⟩ <;>
        simp [h]
    · exact ⟨rfl, rfl⟩
  · exact ⟨rfl, rfl⟩

theorem step_config (op : Op Key Value) (c : LocalCache Key Value) :
    (step op c).1.maximumSize = c.maximumSize
    ∧ (step op c).1.onRemoval = c.onRemoval := by
  cases op with
  | put k v => exact Put_config k v c
  | getIfPresent k =>
      rw [step, GetIfPresent]
      rcases lookupEntry k c.entries with _ | en <;> exact ⟨rfl, rfl⟩
  | invalidate k =>
      rw [step, Invalidate]
      rcases lookupEntry k c.entries with _ | en <;> exact ⟨rfl, rfl⟩
  | invalidateAll => exact ⟨rfl, rfl⟩

theorem run_config (ops : List (Op Key Value)) (c : LocalCache Key Value) :
    (run ops c).1.maximumSize = c.maximumSize
    ∧ (run ops c).1.onRemoval = c.onRemoval := by
  induction ops generalizing c with
  | nil => exact ⟨rfl, rfl⟩
  | cons op ops ih =>
      rw [run]
      exact ⟨(ih (step op c).1).1.trans (step_config op c).1,
        (ih (step op c).1).2.trans (step_config op c).2⟩

theorem run_append (l₁ l₂ : List (Op Key Value)) (c : LocalCache Key Value) :
    run (l₁ ++ l₂) c
      = ((run l₂ (run l₁ c).1).1, (run l₁ c).2 ++ (run l₂ (run l₁ c).1).2) := by
  induction l₁ generalizing c with
  | nil => simp [run]
  | cons op l ih => simp [run, ih, List.append_assoc]

theorem foldl_applyOption_entries (opts : List CacheOption) (c : LocalCache Key Value) :
    (opts.foldl (fun c o => applyOption o c) c).entries = c.entries
    ∧ (opts.foldl (fun c o => applyOption o c) c).clock = c.clock
    ∧ (opts.foldl (fun c o => applyOption o c) c).onRemoval
        = (c.onRemoval || opts.contains CacheOption.withRemovalListener) := by
  induction opts generalizing c with
  | nil => simp
  | cons o opts ih =>
      rcases o with size | _
      · simpa [applyOption, List.contains_cons] using ih ⟨size, c.onRemoval, c.entries, c.clock⟩
      · simpa [applyOption, List.contains_cons]
          using ih ⟨c.maximumSize, true, c.entries, c.clock⟩

theorem New_entries (opts : List CacheOption) :
    (New opts : LocalCache Key Value).entries = []
    ∧ (New opts : LocalCache Key Value).clock = 0 := by
  exact ⟨(foldl_applyOption_entries opts newLocalCache).1,
    (foldl_applyOption_entries opts newLocalCache).2.1⟩

theorem foldl_applyOption_maximumSize (opts : List CacheOption)
    (h : ∀ s : Int, CacheOption.withMaximumSize s ∉ opts) (c : LocalCache Key Value) :
    (opts.foldl (fun c o => applyOption o c) c).maximumSize = c.maximumSize := by
  induction opts generalizing c with
  | nil => rfl
  | cons o opts ih =>
      rcases o with size | _
      · exact absurd (List.mem_cons_self _ _) (h size)
      · exact ih (fun s hs => h s (List.mem_cons_of_mem _ hs))
          ⟨c.maximumSize, true, c.entries, c.clock⟩

end Preservation

/-! ## C10: default maximum size -/

section ClaimC10

variable {Key Value : Type} [DecidableEq Key]

/-- C10: a cache built by `New` with no `WithMaximumSize` option keeps the
`newLocalCache` default `defaultMaximumSize = 2^31 - 1`, which is positive —
so such a cache is not unbounded and the first conjunct of `Put`'s
capacity-eviction guard (`0 < maximumSize`) holds for it. -/
theorem New_default_maximumSize (opts : List CacheOption)
    (h : ∀ s : Int, CacheOption.withMaximumSize s ∉ opts) :
    (New opts : LocalCache Key Value).maximumSize = 2 ^ 31 - 1
    ∧ (0 : Int) < (New opts : LocalCache Key Value).maximumSize := by
  have hm : (New opts : LocalCache Key Value).maximumSize = defaultMaximumSize :=
    foldl_applyOption_maximumSize opts h newLocalCache
  constructor
  · rw [hm]; rfl
  · rw [hm]; decide

/-- C10 witness: the cache built with only a removal listener has maximum
size `2^31 - 1 > 0`. -/
theorem New_default_maximumSize_witness :
    (New [CacheOption.withRemovalListener] : LocalCache Nat Nat).maximumSize = 2 ^ 31 - 1
    ∧ (0 : Int) < (New [CacheOption.withRemovalListener] : LocalCache Nat Nat).maximumSize := by
  exact New_default_maximumSize [CacheOption.withRemovalListener]
    (fun s hs => by simp at hs)

end ClaimC10

/-! ## Shape lemmas for the individual operations -/

section Shapes

variable {Key Value : Type} [DecidableEq Key]

theorem Put_hit (k : Key) (v : Value) (c : LocalCache Key Value) (en : Entry Key Value)
    (hl : lookupEntry k c.entries = some en) :
    Put k v c = (⟨c.maximumSize, c.onRemoval,
      ⟨k, v, c.clock⟩ :: eraseKey k c.entries, c.clock + 1⟩, []) := by
  rw [Put, hl]

theorem Put_fresh_noevict (k : Key) (v : Value) (c : LocalCache Key Value)
    (hl : lookupEntry k c.entries = none)
    (hg : ¬(0 < c.maximumSize ∧ c.maximumSize < ((c.entries.length + 1 : Nat) : Int))) :
    Put k v c = (⟨c.maximumSize, c.onRemoval,
      ⟨k, v, c.clock⟩ :: c.entries, c.clock + 1⟩, []) := by
  rw [Put, hl]
  dsimp only
  rw [if_neg (by simpa using hg)]

theorem Put_fresh_evict (k : Key) (v : Value) (c : LocalCache Key Value)
    (b : Entry Key Value) (rest : List (Entry Key Value))
    (hl : lookupEntry k c.entries = none)
    (hsplit : c.entries = rest ++ [b])
    (hg : 0 < c.maximumSize ∧ c.maximumSize < ((rest.length + 2 : Nat) : Int)) :
    Put k v c = (⟨c.maximumSize, c.onRemoval,
      ⟨k, v, c.clock⟩ :: rest, c.clock + 1⟩,
      if c.onRemoval then [(b.key, b.value)] else []) := by
  rw [Put, hl]
  dsimp only
  rw [if_pos (by rw [hsplit]; simpa [Nat.add_assoc] using hg)]
  rw [hsplit, removeOldest]
  have h1 : ((⟨k, v, c.clock⟩ : Entry Key Value) :: (rest ++ [b])).getLast? = some b := by
    rw [← List.cons_append]
    exact List.getLast?_concat _
  rw [h1]
  have h2 : ((⟨k, v, c.clock⟩ : Entry Key Value) :: (rest ++ [b])).dropLast
      = ⟨k, v, c.clock⟩ :: rest := by
    rw [← List.cons_append]
    exact List.dropLast_concat
  rw [h2]

theorem GetIfPresent_miss (k : Key) (c : LocalCache Key Value)
    (hl : lookupEntry k c.entries = none) :
    GetIfPresent k c = (none, c) := by
  rw [GetIfPresent, hl]

theorem GetIfPresent_hit (k : Key) (c : LocalCache Key Value) (en : Entry Key Value)
    (hl : lookupEntry k c.entries = some en) :
    GetIfPresent k c = (some en.value, ⟨c.maximumSize, c.onRemoval,
      ⟨en.key, en.value, c.clock⟩ :: eraseKey k c.entries, c.clock + 1⟩) := by
  rw [GetIfPresent, hl]

theorem Invalidate_miss (k : Key) (c : LocalCache Key Value)
    (hl : lookupEntry k c.entries = none) :
    Invalidate k c = (c, []) := by
  rw [Invalidate, hl]

theorem Invalidate_hit (k : Key) (c : LocalCache Key Value) (en : Entry Key Value)
    (hl : lookupEntry k c.entries = some en) :
    Invalidate k c = (⟨c.maximumSize, c.onRemoval, eraseKey k c.entries, c.clock⟩,
      if c.onRemoval then [(en.key, en.value)] else []) := by
  rw [Invalidate, hl]

end Shapes

/-! ## C1: capacity invariant -/

section ClaimC1

variable {Key Value : Type} [DecidableEq Key]

theorem Put_length_le (k : Key) (v : Value) (c : LocalCache Key Value)
    (hmax : 0 < c.maximumSize) (hlen : (c.entries.length : Int) ≤ c.maximumSize) :
    ((Put k v c).1.entries.length : Int) ≤ c.maximumSize := by
  rcases hcase : lookupEntry k c.entries with _ | en
  · by_cases hg : 0 < c.maximumSize ∧ c.maximumSize < ((c.entries.length + 1 : Nat) : Int)
    · have hne : c.entries ≠ [] := by
        intro h
        rw [h] at hg
        simp at hg
        omega
      rw [Put_fresh_evict k v c (c.entries.getLast hne) c.entries.dropLast hcase
        (List.dropLast_append_getLast hne).symm
        (by
          have hlen' : c.entries.dropLast.length + 1 = c.entries.length := by
            rw [List.length_dropLast]
            omega
          constructor
          · exact hg.1
          · push_cast
            push_cast at hg
            omega)]
      dsimp only
      rw [List.length_cons, List.length_dropLast]
      have : 1 ≤ c.entries.length := by
        cases h : c.entries with
        | nil => exact absurd h hne
        | cons a l => simp
      push_cast
      omega
    · rw [Put_fresh_noevict k v c hcase hg]
      dsimp only
      rw [List.length_cons]
      push_cast
      push_cast at hg
      omega
  · rw [Put_hit k v c en hcase]
    dsimp only
    rw [List.length_cons, length_eraseKey hcase]
    exact hlen

theorem runPuts_length_le (ps : List (Key × Value)) (c : LocalCache Key Value)
    (hmax : 0 < c.maximumSize) (hlen : (c.entries.length : Int) ≤ c.maximumSize) :
    ((run (putsOf ps) c).1.entries.length : Int) ≤ c.maximumSize := by
  induction ps generalizing c with
  | nil => exact hlen
  | cons p ps ih =>
      rw [putsOf, List.map_cons, run]
      have hc : (step (Op.put p.1 p.2) c).1.maximumSize = c.maximumSize :=
        (step_config _ c).1
      have := ih (step (Op.put p.1 p.2) c).1 (hc ▸ hmax)
        (hc ▸ Put_length_le p.1 p.2 c hmax hlen)
      rw [hc] at this
      exact this

/-- C1: for every positive configured maximum size `n` and every sequence of
`Put` calls on the cache built with `WithMaximumSize n`, the number of live
entries after the run is at most `n`.  Since every prefix of a `Put`
sequence is itself such a sequence, this bounds the live-entry count after
each individual `Put` returns. -/
theorem capacity_invariant (n : Int) (hn : 0 < n) (ps : List (Key × Value)) :
    (((run (putsOf ps)
        (New [CacheOption.withMaximumSize n] : LocalCache Key Value)).1.entries.length : Int))
      ≤ n := by
  have hc : (New [CacheOption.withMaximumSize n] : LocalCache Key Value)
      = ⟨n, false, [], 0⟩ := rfl
  rw [hc]
  exact runPuts_length_le ps ⟨n, false, [], 0⟩ hn (by simp; omega)

/-- C1 witness: with maximum size `1`, after the three `Put` calls
`(0,0), (1,1), (2,2)` the cache holds at most one live entry. -/
theorem capacity_invariant_witness :
    (0 : Int) < 1
    ∧ (((run (putsOf [(0, 0), (1, 1), (2, 2)])
        (New [CacheOption.withMaximumSize 1] : LocalCache Nat Nat)).1.entries.length : Int))
      ≤ 1 := by
  exact ⟨by decide, capacity_invariant 1 (by decide) [(0, 0), (1, 1), (2, 2)]⟩

end ClaimC1

/-! ## C2: plain-LRU eviction order -/

section ClaimC2

variable {Key Value : Type} [DecidableEq Key]

/-- The entries a sequence of fresh `Put` calls creates, in call order, when
the first call happens at clock time `t`. -/
def mkEntries : List (Key × Value) → Nat → List (Entry Key Value)
  | [], _ => []
  | p :: ps, t => ⟨p.1, p.2, t⟩ :: mkEntries ps (t + 1)

theorem keys_mkEntries (ps : List (Key × Value)) (t : Nat) :
    (mkEntries ps t : List (Entry Key Value)).map Entry.key = ps.map Prod.fst := by
  induction ps generalizing t with
  | nil => rfl
  | cons p ps ih => simp [mkEntries, ih]

theorem length_mkEntries (ps : List (Key × Value)) (t : Nat) :
    (mkEntries ps t : List (Entry Key Value)).length = ps.length := by
  induction ps generalizing t with
  | nil => rfl
  | cons p ps ih => simp [mkEntries, ih]

/-- A run of `Put` calls whose keys are pairwise distinct, absent from the
cache, and fit within the maximum size: each call pushes its fresh entry to
the front, nothing is evicted and no listener fires. -/
theorem run_putsOf_fresh (ps : List (Key × Value)) (c : LocalCache Key Value)
    (hnd : (ps.map Prod.fst).Nodup)
    (hdisj : ∀ p ∈ ps, lookupEntry p.1 c.entries = none)
    (hsize : (c.entries.length : Int) + ps.length ≤ c.maximumSize) :
    run (putsOf ps) c
      = (⟨c.maximumSize, c.onRemoval, (mkEntries ps c.clock).reverse ++ c.entries,
          c.clock + ps.length⟩, []) := by
  induction ps generalizing c with
  | nil => simp [putsOf, run, mkEntries]
  | cons p ps ih =>
      obtain ⟨k, v⟩ := p
      rw [List.map_cons, List.nodup_cons] at hnd
      have hl : lookupEntry k c.entries = none := hdisj (k, v) (List.mem_cons_self _ _)
      have hg : ¬(0 < c.maximumSize ∧ c.maximumSize < ((c.entries.length + 1 : Nat) : Int)) := by
        rw [List.length_cons] at hsize
        push_cast at hsize ⊢
        omega
      rw [putsOf, List.map_cons, run, step, Put_fresh_noevict k v c hl hg]
      dsimp only
      have hdisj' : ∀ p' ∈ ps,
          lookupEntry p'.1 ((⟨k, v, c.clock⟩ : Entry Key Value) :: c.entries) = none := by
        intro p' hp'
        have hmem : p'.1 ∈ List.map Prod.fst ps := List.mem_map_of_mem Prod.fst hp'
        have hne : k ≠ p'.1 := by
          intro hEq
          rw [hEq] at hnd
          exact hnd.1 hmem
        rw [lookupEntry, if_neg hne]
        exact hdisj p' (List.mem_cons_of_mem _ hp')
      have hsize' : (((⟨k, v, c.clock⟩ : Entry Key Value) :: c.entries).length : Int) + ps.length
          ≤ c.maximumSize := by
        rw [List.length_cons] at hsize ⊢
        push_cast at hsize ⊢
        omega
      rw [← putsOf,
        ih ⟨c.maximumSize, c.onRemoval, ⟨k, v, c.clock⟩ :: c.entries, c.clock + 1⟩ hnd.2
          hdisj' hsize']
      simp [mkEntries, List.reverse_cons, List.append_assoc, LocalCache.mk.injEq]
      omega

/-- C2: with capacity `N > 0` and a removal listener, a sequence of `N + 1`
`Put` calls with pairwise-distinct keys and no intervening `GetIfPresent`
evicts exactly one entry, namely the one inserted by the first `Put`: the
listener fires exactly once, with the first call's key/value pair.  (New
entries are pushed to the front of the recency list; the eviction victim is
taken from the back.) -/
theorem lru_evicts_first_inserted (N : Nat) (hN : 0 < N) (k0 : Key) (v0 : Value)
    (rest : List (Key × Value)) (hlen : rest.length = N)
    (hnd : (((k0, v0) :: rest).map Prod.fst).Nodup) :
    (run (putsOf ((k0, v0) :: rest))
      (New [CacheOption.withMaximumSize (N : Int), CacheOption.withRemovalListener]
        : LocalCache Key Value)).2 = [(k0, v0)] := by
  rw [List.map_cons, List.nodup_cons] at hnd
  have hc : (New [CacheOption.withMaximumSize (N : Int), CacheOption.withRemovalListener]
      : LocalCache Key Value) = ⟨(N : Int), true, [], 0⟩ := rfl
  have hne : rest ≠ [] := by
    intro h
    rw [h] at hlen
    simp at hlen
    omega
  set pl := rest.getLast hne with hpl
  set mid := rest.dropLast with hmid
  have hsplit : mid ++ [pl] = rest := List.dropLast_append_getLast hne
  have hml : mid.length + 1 = N := by
    rw [hmid, List.length_dropLast]
    omega
  -- first put: fresh insert into the empty cache, no eviction
  have hstep0 : Put k0 v0 (⟨(N : Int), true, [], 0⟩ : LocalCache Key Value)
      = (⟨(N : Int), true, [⟨k0, v0, 0⟩], 1⟩, []) := by
    refine Put_fresh_noevict k0 v0 _ rfl ?_
    dsimp only
    rw [List.length_nil]
    push_cast
    omega
  -- the keys of rest, split into the middle part and the last one
  have hrestkeys : mid.map Prod.fst ++ [pl.1] = rest.map Prod.fst := by
    rw [← hsplit]
    simp
  have hndrest : (mid.map Prod.fst ++ [pl.1]).Nodup := by
    rw [hrestkeys]
    exact hnd.2
  have hndmid : (mid.map Prod.fst).Nodup := (List.nodup_append.mp hndrest).1
  have hplmid : pl.1 ∉ mid.map Prod.fst := by
    intro hmem
    exact (List.nodup_append.mp hndrest).2.2 hmem (List.mem_singleton_self _)
  have hk0 : ∀ q ∈ rest.map Prod.fst, k0 ≠ q := by
    intro q hq hEq
    rw [hEq] at hnd
    exact hnd.1 hq
  -- middle puts: all fresh, the cache fills up to exactly N entries
  have hmidrun : run (putsOf mid) (⟨(N : Int), true, [⟨k0, v0, 0⟩], 1⟩ : LocalCache Key Value)
      = (⟨(N : Int), true,
          (mkEntries mid 1).reverse ++ [⟨k0, v0, 0⟩], 1 + mid.length⟩, []) := by
    refine run_putsOf_fresh mid _ hndmid ?_ ?_
    · intro p hp
      have hmemmid : p.1 ∈ mid.map Prod.fst := List.mem_map_of_mem Prod.fst hp
      have hmemrest : p.1 ∈ rest.map Prod.fst := by
        rw [← hrestkeys]
        exact List.mem_append_left _ hmemmid
      have hne' : k0 ≠ p.1 := hk0 p.1 hmemrest
      dsimp only
      rw [lookupEntry, if_neg hne', lookupEntry]
    · dsimp only
      rw [List.length_singleton]
      push_cast
      omega
  -- last put: fresh insert into the full cache, evicting the back entry
  have hlast : Put pl.1 pl.2
      (⟨(N : Int), true, (mkEntries mid 1).reverse ++ [⟨k0, v0, 0⟩], 1 + mid.length⟩
        : LocalCache Key Value)
      = (⟨(N : Int), true,
          ⟨pl.1, pl.2, 1 + mid.length⟩ :: (mkEntries mid 1).reverse, 1 + mid.length + 1⟩,
        [(k0, v0)]) := by
    have hl : lookupEntry pl.1 ((mkEntries mid 1).reverse
        ++ [(⟨k0, v0, 0⟩ : Entry Key Value)]) = none := by
      rw [lookupEntry_eq_none_iff, List.map_append, List.map_reverse, keys_mkEntries]
      intro hmem
      rcases List.mem_append.mp hmem with hmem | hmem
      · exact hplmid (List.mem_reverse.mp hmem)
      · have hmemrest : pl.1 ∈ rest.map Prod.fst := by
          rw [← hrestkeys]
          exact List.mem_append_right _ (List.mem_singleton_self _)
        have : pl.1 = k0 := by simpa using hmem
        exact hk0 pl.1 hmemrest this.symm
    have := Put_fresh_evict pl.1 pl.2
      (⟨(N : Int), true, (mkEntries mid 1).reverse ++ [⟨k0, v0, 0⟩], 1 + mid.length⟩
        : LocalCache Key Value)
      ⟨k0, v0, 0⟩ (mkEntries mid 1).reverse hl rfl
      (by
        dsimp only
        rw [List.length_reverse, length_mkEntries]
        push_cast
        omega)
    simpa using this
  rw [hc, putsOf, List.map_cons, run, step, hstep0]
  dsimp only
  rw [← putsOf, ← hsplit, putsOf, List.map_append, run_append, ← putsOf, ← putsOf, hmidrun]
  dsimp only
  rw [putsOf, List.map_singleton, run, step, hlast]
  simp [run]

/-- C2 witness: capacity `1`, two distinct-key puts `(0,10)` then `(1,11)`;
the single eviction reports the first pair `(0,10)`. -/
theorem lru_evicts_first_inserted_witness :
    0 < 1 ∧ ([((1 : Nat), (11 : Nat))] : List (Nat × Nat)).length = 1
    ∧ ((((0 : Nat), (10 : Nat)) :: [((1 : Nat), (11 : Nat))]).map Prod.fst).Nodup
    ∧ (run (putsOf [((0 : Nat), (10 : Nat)), ((1 : Nat), (11 : Nat))])
        (New [CacheOption.withMaximumSize ((1 : Nat) : Int), CacheOption.withRemovalListener]
          : LocalCache Nat Nat)).2 = [(0, 10)] := by
  exact ⟨by decide, by decide, by decide,
    lru_evicts_first_inserted 1 (by decide) 0 10 [(1, 11)] (by decide) (by decide)⟩

end ClaimC2

/-! ## The no-duplicate-keys invariant -/

section NodupInvariant

variable {Key Value : Type} [DecidableEq Key]

theorem removeOldest_sublist (l : List (Entry Key Value)) :
    List.Sublist (removeOldest l).2 l := by
  rw [removeOldest]
  rcases l.getLast? with _ | b
  · exact List.Sublist.refl l
  · exact List.dropLast_sublist l

theorem nodup_Put (k : Key) (v : Value) (c : LocalCache Key Value)
    (hn : (c.entries.map Entry.key).Nodup) :
    ((Put k v c).1.entries.map Entry.key).Nodup := by
  rcases hcase : lookupEntry k c.entries with _ | en
  · have hk : k ∉ c.entries.map Entry.key := lookupEntry_eq_none_iff.mp hcase
    have hcons : (((⟨k, v, c.clock⟩ : Entry Key Value) :: c.entries).map Entry.key).Nodup := by
      rw [List.map_cons, List.nodup_cons]
      exact ⟨hk, hn⟩
    rw [Put, hcase]
    dsimp only
    split
    · rcases hro : removeOldest (⟨k, v, c.clock⟩ :: c.entries) with ⟨rem, restl⟩
      have hsub := removeOldest_sublist (⟨k, v, c.clock⟩ :: c.entries)
      rw [hro] at hsub
      rcases rem with _ | rem <;> exact hcons.sublist (hsub.map Entry.key)
    · exact hcons
  · rw [Put_hit k v c en hcase]
    dsimp only
    rw [List.map_cons, keys_eraseKey, List.nodup_cons]
    exact ⟨hn.not_mem_erase, hn.erase k⟩

theorem nodup_step (op : Op Key Value) (c : LocalCache Key Value)
    (hn : (c.entries.map Entry.key).Nodup) :
    ((step op c).1.entries.map Entry.key).Nodup := by
  cases op with
  | put k v => exact nodup_Put k v c hn
  | getIfPresent k =>
      rcases hcase : lookupEntry k c.entries with _ | en
      · rw [step, GetIfPresent_miss k c hcase]
        exact hn
      · rw [step, GetIfPresent_hit k c en hcase]
        dsimp only
        rw [List.map_cons, keys_eraseKey, List.nodup_cons, (lookupEntry_eq_some hcase).1]
        exact ⟨hn.not_mem_erase, hn.erase k⟩
  | invalidate k =>
      rcases hcase : lookupEntry k c.entries with _ | en
      · rw [step, Invalidate_miss k c hcase]
        exact hn
      · rw [step, Invalidate_hit k c en hcase]
        dsimp only
        exact hn.sublist ((eraseKey_sublist k c.entries).map Entry.key)
  | invalidateAll => exact List.nodup_nil

theorem nodup_run (ops : List (Op Key Value)) (c : LocalCache Key Value)
    (hn : (c.entries.map Entry.key).Nodup) :
    ((run ops c).1.entries.map Entry.key).Nodup := by
  induction ops generalizing c with
  | nil => exact hn
  | cons op ops ih => exact ih (step op c).1 (nodup_step op c hn)

end NodupInvariant

/-! ## C5: absence after invalidation, uniqueness of ownership -/

section ClaimC5

variable {Key Value : Type} [DecidableEq Key]

/-- Does the operation list contain a `put` of the given key? -/
def mentionsPut (k : Key) : List (Op Key Value) → Bool
  | [] => false
  | Op.put k' _ :: ops => (k' = k) || mentionsPut k ops
  | _ :: ops => mentionsPut k ops

theorem lookupEntry_step_none (op : Op Key Value) (c : LocalCache Key Value) (k : Key)
    (hk : lookupEntry k c.entries = none) (hop : ∀ v, op ≠ Op.put k v) :
    lookupEntry k (step op c).1.entries = none := by
  cases op with
  | put k' v =>
      have hne : k' ≠ k := by
        intro hEq
        exact hop v (by rw [hEq])
      rcases hcase : lookupEntry k' c.entries with _ | en
      · have hcons : lookupEntry k ((⟨k', v, c.clock⟩ : Entry Key Value) :: c.entries)
            = none := by
          rw [lookupEntry, if_neg hne]
          exact hk
        rw [step, Put, hcase]
        dsimp only
        split
        · rcases hro : removeOldest (⟨k', v, c.clock⟩ :: c.entries) with ⟨rem, restl⟩
          have hsub := removeOldest_sublist (⟨k', v, c.clock⟩ :: c.entries)
          rw [hro] at hsub
          rcases rem with _ | rem <;> exact lookupEntry_sublist_none hsub hcons
        · exact hcons
      · rw [step, Put_hit k' v c en hcase]
        dsimp only
        rw [lookupEntry, if_neg hne]
        exact lookupEntry_sublist_none (eraseKey_sublist k' c.entries) hk
  | getIfPresent k' =>
      rcases hcase : lookupEntry k' c.entries with _ | en
      · rw [step, GetIfPresent_miss k' c hcase]
        exact hk
      · have hne : en.key ≠ k := by
          intro hEq
          rw [(lookupEntry_eq_some hcase).1] at hEq
          rw [hEq] at hcase
          rw [hcase] at hk
          cases hk
        rw [step, GetIfPresent_hit k' c en hcase]
        dsimp only
        rw [lookupEntry, if_neg hne]
        exact lookupEntry_sublist_none (eraseKey_sublist k' c.entries) hk
  | invalidate k' =>
      rcases hcase : lookupEntry k' c.entries with _ | en
      · rw [step, Invalidate_miss k' c hcase]
        exact hk
      · rw [step, Invalidate_hit k' c en hcase]
        dsimp only
        exact lookupEntry_sublist_none (eraseKey_sublist k' c.entries) hk
  | invalidateAll => rfl

theorem lookupEntry_run_none (ops : List (Op Key Value)) (c : LocalCache Key Value) (k : Key)
    (hk : lookupEntry k c.entries = none) (hops : mentionsPut k ops = false) :
    lookupEntry k (run ops c).1.entries = none := by
  induction ops generalizing c with
  | nil => exact hk
  | cons op ops ih =>
      have hop : ∀ v, op ≠ Op.put k v := by
        intro v hEq
        rw [hEq] at hops
        rw [mentionsPut] at hops
        simp at hops
      have hops' : mentionsPut k ops = false := by
        cases op with
        | put k' v =>
            rw [mentionsPut] at hops
            exact (Bool.or_eq_false_iff.mp hops).2
        | getIfPresent k' => exact hops
        | invalidate k' => exact hops
        | invalidateAll => exact hops
      rw [run]
      exact ih (step op c).1 (lookupEntry_step_none op c k hk hop) hops'

theorem lookupEntry_Invalidate_self (k : Key) (c : LocalCache Key Value)
    (hn : (c.entries.map Entry.key).Nodup) :
    lookupEntry k (Invalidate k c).1.entries = none := by
  rcases hcase : lookupEntry k c.entries with _ | en
  · rw [Invalidate_miss k c hcase]
    exact hcase
  · rw [Invalidate_hit k c en hcase]
    dsimp only
    rw [lookupEntry_eq_none_iff, keys_eraseKey]
    exact hn.not_mem_erase

/-- C5: a key present in the cache refers to exactly one entry (the key list
of the entries list — which the `cache` map mirrors — never has duplicates);
after an `Invalidate` of a key, every later `GetIfPresent` of that key
returns absent as long as no later `Put` re-inserts it; and likewise from
any state in which the key is absent (in particular after its entry was
evicted). -/
theorem at_most_one_owner (opts : List CacheOption) (ops₁ ops₂ : List (Op Key Value))
    (k : Key) (h : mentionsPut k ops₂ = false) :
    ((run ops₁ (New opts : LocalCache Key Value)).1.entries.map Entry.key).Nodup
    ∧ (GetIfPresent k
        (run ops₂ (Invalidate k (run ops₁ (New opts)).1).1).1).1 = none
    ∧ (lookupEntry k (run ops₁ (New opts : LocalCache Key Value)).1.entries = none →
        (GetIfPresent k (run ops₂ (run ops₁ (New opts)).1).1).1 = none) := by
  have hn0 : ((New opts : LocalCache Key Value).entries.map Entry.key).Nodup := by
    rw [(New_entries opts).1]
    exact List.nodup_nil
  have hn1 := nodup_run ops₁ (New opts) hn0
  refine ⟨hn1, ?_, ?_⟩
  · have habs := lookupEntry_Invalidate_self k (run ops₁ (New opts)).1 hn1
    have habs2 := lookupEntry_run_none ops₂ _ k habs h
    rw [GetIfPresent_miss _ _ habs2]
  · intro habs
    have habs2 := lookupEntry_run_none ops₂ _ k habs h
    rw [GetIfPresent_miss _ _ habs2]

/-- C5 witness: with key `0` put then invalidated, a later run that puts a
different key and reads key `0` sees it absent, and the key lists stay
duplicate-free. -/
theorem at_most_one_owner_witness :
    mentionsPut 0 [Op.put 1 7, Op.getIfPresent 0] = false
    ∧ (((run [Op.put 0 5] (New [] : LocalCache Nat Nat)).1.entries.map Entry.key).Nodup
      ∧ (GetIfPresent 0
          (run [Op.put 1 7, Op.getIfPresent 0]
            (Invalidate 0 (run [Op.put 0 5] (New [] : LocalCache Nat Nat)).1).1).1).1 = none
      ∧ (lookupEntry 0 (run [Op.put 0 5] (New [] : LocalCache Nat Nat)).1.entries = none →
          (GetIfPresent 0
            (run [Op.put 1 7, Op.getIfPresent 0]
              (run [Op.put 0 5] (New [] : LocalCache Nat Nat)).1).1).1 = none)) := by
  exact ⟨by decide,
    at_most_one_owner [] [Op.put 0 5] [Op.put 1 7, Op.getIfPresent 0] 0 (by decide)⟩

end ClaimC5

/-! ## C6: idempotent clear -/

section ClaimC6

variable {Key Value : Type} [DecidableEq Key]

/-- C6: after `InvalidateAll`, `GetIfPresent` of any key (in particular any
previously-present one) returns absent; the first `InvalidateAll` fires the
removal listener exactly for the entries live at that moment (one invocation
per entry, with its key and current value); and an immediately repeated
`InvalidateAll` fires the listener for nothing. -/
theorem invalidateAll_idempotent (ops : List (Op Key Value)) (k : Key) :
    (GetIfPresent k
        (InvalidateAll (run ops (New [CacheOption.withRemovalListener]
          : LocalCache Key Value)).1).1).1 = none
    ∧ (InvalidateAll (run ops (New [CacheOption.withRemovalListener]
          : LocalCache Key Value)).1).2
        = (run ops (New [CacheOption.withRemovalListener]
            : LocalCache Key Value)).1.entries.map (fun en => (en.key, en.value))
    ∧ (InvalidateAll (InvalidateAll (run ops (New [CacheOption.withRemovalListener]
          : LocalCache Key Value)).1).1).2 = [] := by
  have hrem : (run ops (New [CacheOption.withRemovalListener]
      : LocalCache Key Value)).1.onRemoval = true := by
    rw [(run_config ops _).2]
    rfl
  refine ⟨?_, ?_, ?_⟩
  · simp [InvalidateAll, GetIfPresent, lookupEntry]
  · rw [InvalidateAll]
    dsimp only
    rw [if_pos hrem]
  · rw [InvalidateAll, InvalidateAll]
    dsimp only
    split <;> rfl

end ClaimC6

/-! ## C8: non-positive maximum size means unbounded -/

section ClaimC8

variable {Key Value : Type} [DecidableEq Key]

/-- Specification-side liveness tracking for claim C8, following the claim's
words rather than the code: one abstract step keeps the list of distinct
keys that have been put and not invalidated since. -/
def specStep : Op Key Value → List Key → List Key
  | Op.put k _, L => if k ∈ L then L else k :: L
  | Op.getIfPresent _, L => L
  | Op.invalidate k, L => L.erase k
  | Op.invalidateAll, _ => []

/-- Specification-side fold of `specStep` over an operation sequence (the
claim's "distinct keys ever put and not invalidated"). -/
def specLiveKeys : List (Op Key Value) → List Key → List Key
  | [], L => L
  | op :: ops, L => specLiveKeys ops (specStep op L)

/-- Does the operation, if it is a `Put`, fire no removal-listener
invocation on the given cache? -/
def firesNothingAt : Op Key Value → LocalCache Key Value → Bool
  | Op.put k v, c => (Put k v c).2.isEmpty
  | Op.getIfPresent _, _ => true
  | Op.invalidate _, _ => true
  | Op.invalidateAll, _ => true

/-- Does every `Put` in the sequence fire no removal-listener invocation? -/
def putsFireNothing : List (Op Key Value) → LocalCache Key Value → Bool
  | [], _ => true
  | op :: ops, c => firesNothingAt op c && putsFireNothing ops (step op c).1

/-- With a non-positive maximum size, a `Put` never evicts, so it performs no
listener invocation at all. -/
theorem Put_events_unbounded (k : Key) (v : Value) (c : LocalCache Key Value)
    (hmax : c.maximumSize ≤ 0) : (Put k v c).2 = [] := by
  rcases hcase : lookupEntry k c.entries with _ | en
  · have hg : ¬(0 < c.maximumSize
        ∧ c.maximumSize < ((c.entries.length + 1 : Nat) : Int)) := by
      intro hg
      omega
    rw [Put_fresh_noevict k v c hcase hg]
  · rw [Put_hit k v c en hcase]

theorem step_keys_perm_unbounded (op : Op Key Value) (c : LocalCache Key Value)
    (L : List Key) (hmax : c.maximumSize ≤ 0)
    (hperm : (c.entries.map Entry.key).Perm L) :
    ((step op c).1.entries.map Entry.key).Perm (specStep op L) := by
  cases op with
  | put k v =>
      rcases hcase : lookupEntry k c.entries with _ | en
      · have hk : k ∉ c.entries.map Entry.key := lookupEntry_eq_none_iff.mp hcase
        have hkL : k ∉ L := fun hKL => hk (hperm.mem_iff.mpr hKL)
        have hg : ¬(0 < c.maximumSize
            ∧ c.maximumSize < ((c.entries.length + 1 : Nat) : Int)) := by
          intro hg
          omega
        rw [step, Put_fresh_noevict k v c hcase hg]
        dsimp only
        rw [specStep, if_neg hkL]
        exact hperm.cons k
      · have hk : k ∈ c.entries.map Entry.key := by
          have h := lookupEntry_eq_some hcase
          exact h.1 ▸ List.mem_map_of_mem Entry.key h.2
        have hkL : k ∈ L := hperm.mem_iff.mp hk
        rw [step, Put_hit k v c en hcase]
        dsimp only
        rw [specStep, if_pos hkL, List.map_cons, keys_eraseKey]
        exact ((List.perm_cons_erase hk).symm).trans hperm
  | getIfPresent k =>
      rcases hcase : lookupEntry k c.entries with _ | en
      · rw [step, GetIfPresent_miss k c hcase]
        exact hperm
      · have hk : k ∈ c.entries.map Entry.key := by
          have h := lookupEntry_eq_some hcase
          exact h.1 ▸ List.mem_map_of_mem Entry.key h.2
        rw [step, GetIfPresent_hit k c en hcase]
        dsimp only
        rw [List.map_cons, keys_eraseKey, (lookupEntry_eq_some hcase).1, specStep]
        exact ((List.perm_cons_erase hk).symm).trans hperm
  | invalidate k =>
      rcases hcase : lookupEntry k c.entries with _ | en
      · have hk : k ∉ c.entries.map Entry.key := lookupEntry_eq_none_iff.mp hcase
        have hkL : k ∉ L := fun hKL => hk (hperm.mem_iff.mpr hKL)
        rw [step, Invalidate_miss k c hcase, specStep, List.erase_of_not_mem hkL]
        exact hperm
      · rw [step, Invalidate_hit k c en hcase]
        dsimp only
        rw [keys_eraseKey, specStep]
        exact hperm.erase k
  | invalidateAll =>
      rw [step, InvalidateAll, specStep]
      exact List.Perm.refl []

theorem run_unbounded (ops : List (Op Key Value)) (c : LocalCache Key Value)
    (L : List Key) (hmax : c.maximumSize ≤ 0)
    (hperm : (c.entries.map Entry.key).Perm L) :
    putsFireNothing ops c = true
    ∧ ((run ops c).1.entries.map Entry.key).Perm (specLiveKeys ops L) := by
  induction ops generalizing c L with
  | nil => exact ⟨rfl, hperm⟩
  | cons op ops ih =>
      have hmax' : (step op c).1.maximumSize ≤ 0 := by
        rw [(step_config op c).1]
        exact hmax
      have hperm' := step_keys_perm_unbounded op c L hmax hperm
      have hrec := ih (step op c).1 (specStep op L) hmax' hperm'
      constructor
      · rw [putsFireNothing, Bool.and_eq_true]
        refine ⟨?_, hrec.1⟩
        cases op with
        | put k v =>
            rw [firesNothingAt, Put_events_unbounded k v c hmax]
            rfl
        | getIfPresent k => rfl
        | invalidate k => rfl
        | invalidateAll => rfl
      · rw [run, specLiveKeys]
        exact hrec.2

/-- C8: with a maximum size set to a non-positive value via
`WithMaximumSize`, the cache is unbounded: no `Put` ever performs a removal
(no eviction, hence no listener invocation from a `Put` even though a
listener is configured), and the number of live entries always equals the
number of distinct keys put and not invalidated since (tracked
specification-side by `specLiveKeys`). -/
theorem unbounded_no_eviction (size : Int) (hsize : size ≤ 0) (ops : List (Op Key Value)) :
    putsFireNothing ops
      (New [CacheOption.withMaximumSize size, CacheOption.withRemovalListener]
        : LocalCache Key Value) = true
    ∧ (run ops
        (New [CacheOption.withMaximumSize size, CacheOption.withRemovalListener]
          : LocalCache Key Value)).1.entries.length
      = (specLiveKeys ops ([] : List Key)).length := by
  have hc : (New [CacheOption.withMaximumSize size, CacheOption.withRemovalListener]
      : LocalCache Key Value) = ⟨size, true, [], 0⟩ := rfl
  have h := run_unbounded ops
    (⟨size, true, [], 0⟩ : LocalCache Key Value) [] hsize (List.Perm.refl [])
  rw [hc]
  refine ⟨h.1, ?_⟩
  have := h.2.length_eq
  rw [List.length_map] at this
  exact this

/-- C8 witness: with maximum size `0` and four operations, no put fires the
listener and the final size equals the one distinct un-invalidated key. -/
theorem unbounded_no_eviction_witness :
    (0 : Int) ≤ 0
    ∧ (putsFireNothing
        [Op.put 1 10, Op.put 2 20, Op.put 1 30, Op.invalidate 2]
        (New [CacheOption.withMaximumSize 0, CacheOption.withRemovalListener]
          : LocalCache Nat Nat) = true
      ∧ (run [Op.put 1 10, Op.put 2 20, Op.put 1 30, Op.invalidate 2]
          (New [CacheOption.withMaximumSize 0, CacheOption.withRemovalListener]
            : LocalCache Nat Nat)).1.entries.length
        = (specLiveKeys [Op.put (1 : Nat) (10 : Nat), Op.put 2 20, Op.put 1 30,
            Op.invalidate 2] ([] : List Nat)).length) := by
  exact ⟨by decide,
    unbounded_no_eviction 0 (by decide)
      [Op.put 1 10, Op.put 2 20, Op.put 1 30, Op.invalidate 2]⟩

end ClaimC8

/-! ## C4: removal listener fires exactly once per entry lifetime -/

section ClaimC4

variable {Key Value : Type} [DecidableEq Key] [DecidableEq Value]

/-- One if the operation is a `Put` of key `k` that inserts a fresh entry
(key absent at that moment), zero otherwise. -/
def freshBit (k : Key) : Op Key Value → LocalCache Key Value → Nat
  | Op.put k' _, c => if k' = k ∧ (lookupEntry k' c.entries).isNone = true then 1 else 0
  | Op.getIfPresent _, _ => 0
  | Op.invalidate _, _ => 0
  | Op.invalidateAll, _ => 0

/-- How many fresh insertions of key `k` the operation sequence performs. -/
def freshInserts (k : Key) : List (Op Key Value) → LocalCache Key Value → Nat
  | [], _ => 0
  | op :: ops, c => freshBit k op c + freshInserts k ops (step op c).1

/-- The value the cache currently stores for a key. -/
def valueOf (k : Key) (c : LocalCache Key Value) : Option Value :=
  (lookupEntry k c.entries).map Entry.value

/-- Every listener invocation the operation performs carries the key/value
pair the cache stored for that key just before the operation. -/
def removedMatchStep (c : LocalCache Key Value) (op : Op Key Value) : Bool :=
  ((step op c).2).all (fun p => valueOf p.1 c = some p.2)

/-- `removedMatchStep` holding at every step of a run. -/
def removedMatchRun : List (Op Key Value) → LocalCache Key Value → Bool
  | [], _ => true
  | op :: ops, c => removedMatchStep c op && removedMatchRun ops (step op c).1

theorem count_cons_ite (a b : Key) (l : List Key) :
    (a :: l).count b = l.count b + (if b = a then 1 else 0) := by
  by_cases h : b = a
  · rw [if_pos h, h, List.count_cons_self]
  · rw [if_neg h, List.count_cons_of_ne h]
    omega

theorem count_ite_comm (a b : Key) :
    (if a = b then 1 else 0) = (if b = a then (1 : Nat) else 0) := by
  by_cases h : a = b
  · rw [if_pos h, if_pos h.symm]
  · rw [if_neg h, if_neg (fun hh => h hh.symm)]

theorem step_count (k : Key) (op : Op Key Value) (c : LocalCache Key Value)
    (hrem : c.onRemoval = true) :
    ((step op c).2.map Prod.fst).count k + ((step op c).1.entries.map Entry.key).count k
      = freshBit k op c + (c.entries.map Entry.key).count k := by
  cases op with
  | put k' v =>
      rcases hcase : lookupEntry k' c.entries with _ | en
      · rw [step]
        have hfb : freshBit k (Op.put k' v) c = if k = k' then 1 else 0 := by
          rw [freshBit, hcase]
          by_cases h : k = k'
          · rw [if_pos h, if_pos ⟨h.symm, rfl⟩]
          · rw [if_neg h, if_neg (fun hh => h hh.1.symm)]
        by_cases hg : 0 < c.maximumSize
            ∧ c.maximumSize < ((c.entries.length + 1 : Nat) : Int)
        · have hne : c.entries ≠ [] := by
            intro h
            rw [h] at hg
            simp at hg
            omega
          have hsplit : c.entries = c.entries.dropLast ++ [c.entries.getLast hne] :=
            (List.dropLast_append_getLast hne).symm
          rw [Put_fresh_evict k' v c (c.entries.getLast hne) c.entries.dropLast hcase hsplit
            (by
              constructor
              · exact hg.1
              · have hlen : c.entries.dropLast.length + 1 = c.entries.length := by
                  rw [List.length_dropLast]
                  have : 1 ≤ c.entries.length := by
                    cases h : c.entries with
                    | nil => exact absurd h hne
                    | cons a l => simp
                  omega
                have := hg.2
                push_cast at this ⊢
                omega)]
          dsimp only
          rw [if_pos hrem, hfb]
          conv_rhs => rw [hsplit]
          simp only [List.map_cons, List.map_nil, List.map_append, List.count_append,
            count_cons_ite, List.count_nil]
          omega
        · rw [Put_fresh_noevict k' v c hcase hg]
          dsimp only
          rw [hfb]
          simp only [List.map_nil, List.count_nil, List.map_cons, count_cons_ite]
          omega
      · have hk : k' ∈ c.entries.map Entry.key := by
          have h := lookupEntry_eq_some hcase
          exact h.1 ▸ List.mem_map_of_mem Entry.key h.2
        have hfb : freshBit k (Op.put k' v) c = 0 := by
          rw [freshBit, hcase]
          rw [if_neg]
          intro h
          cases h.2
        rw [step, Put_hit k' v c en hcase]
        dsimp only
        rw [hfb]
        simp only [List.map_nil, List.count_nil, List.map_cons, keys_eraseKey,
          count_cons_ite]
        have hperm := ((List.perm_cons_erase hk).symm).count_eq k
        rw [count_cons_ite] at hperm
        omega
  | getIfPresent k' =>
      rcases hcase : lookupEntry k' c.entries with _ | en
      · rw [step, GetIfPresent_miss k' c hcase]
        rfl
      · have hk : k' ∈ c.entries.map Entry.key := by
          have h := lookupEntry_eq_some hcase
          exact h.1 ▸ List.mem_map_of_mem Entry.key h.2
        rw [step, GetIfPresent_hit k' c en hcase]
        dsimp only
        rw [freshBit]
        simp only [List.map_nil, List.count_nil, List.map_cons, keys_eraseKey,
          (lookupEntry_eq_some hcase).1, count_cons_ite]
        have hperm := ((List.perm_cons_erase hk).symm).count_eq k
        rw [count_cons_ite] at hperm
        omega
  | invalidate k' =>
      rcases hcase : lookupEntry k' c.entries with _ | en
      · rw [step, Invalidate_miss k' c hcase]
        rfl
      · have hk : k' ∈ c.entries.map Entry.key := by
          have h := lookupEntry_eq_some hcase
          exact h.1 ▸ List.mem_map_of_mem Entry.key h.2
        rw [step, Invalidate_hit k' c en hcase]
        dsimp only
        rw [if_pos hrem, freshBit, keys_eraseKey, (lookupEntry_eq_some hcase).1]
        simp only [List.map_cons, List.map_nil, count_cons_ite, List.count_nil]
        have hperm := (List.perm_cons_erase hk).count_eq k
        rw [count_cons_ite] at hperm
        omega
  | invalidateAll =>
      rw [step, InvalidateAll]
      dsimp only
      rw [if_pos hrem, freshBit, List.map_map, List.map_nil, List.count_nil]
      have hcomp : (Prod.fst ∘ fun en : Entry Key Value => (en.key, en.value))
          = Entry.key := rfl
      rw [hcomp]
      omega

theorem step_removedMatch (op : Op Key Value) (c : LocalCache Key Value)
    (hn : (c.entries.map Entry.key).Nodup) :
    removedMatchStep c op = true := by
  rw [removedMatchStep]
  cases op with
  | put k' v =>
      rcases hcase : lookupEntry k' c.entries with _ | en
      · rw [step]
        by_cases hg : 0 < c.maximumSize
            ∧ c.maximumSize < ((c.entries.length + 1 : Nat) : Int)
        · have hne : c.entries ≠ [] := by
            intro h
            rw [h] at hg
            simp at hg
            omega
          have hsplit : c.entries = c.entries.dropLast ++ [c.entries.getLast hne] :=
            (List.dropLast_append_getLast hne).symm
          rw [Put_fresh_evict k' v c (c.entries.getLast hne) c.entries.dropLast hcase hsplit
            (by
              constructor
              · exact hg.1
              · have hlen : c.entries.dropLast.length + 1 = c.entries.length := by
                  rw [List.length_dropLast]
                  have : 1 ≤ c.entries.length := by
                    cases h : c.entries with
                    | nil => exact absurd h hne
                    | cons a l => simp
                  omega
                have := hg.2
                push_cast at this ⊢
                omega)]
          dsimp only
          have hb : lookupEntry (c.entries.getLast hne).key c.entries
              = some (c.entries.getLast hne) :=
            lookupEntry_of_mem_nodup hn (List.getLast_mem hne)
          split
          · rw [List.all_cons, List.all_nil, Bool.and_true]
            simp [valueOf, hb]
          · rfl
        · rw [Put_fresh_noevict k' v c hcase hg]
          rfl
      · rw [step, Put_hit k' v c en hcase]
        rfl
  | getIfPresent k' =>
      rcases hcase : lookupEntry k' c.entries with _ | en
      · rw [step, GetIfPresent_miss k' c hcase]
        rfl
      · rw [step, GetIfPresent_hit k' c en hcase]
        rfl
  | invalidate k' =>
      rcases hcase : lookupEntry k' c.entries with _ | en
      · rw [step, Invalidate_miss k' c hcase]
        rfl
      · rw [step, Invalidate_hit k' c en hcase]
        dsimp only
        split
        · rw [List.all_cons, List.all_nil, Bool.and_true,
            (lookupEntry_eq_some hcase).1]
          simp [valueOf, hcase]
        · rfl
  | invalidateAll =>
      rw [step, InvalidateAll]
      dsimp only
      split
      · rw [List.all_eq_true]
        intro p hp
        rcases List.mem_map.mp hp with ⟨en, hen, rfl⟩
        have := lookupEntry_of_mem_nodup hn hen
        simp [valueOf, this]
      · rfl

theorem run_count (ops : List (Op Key Value)) (k : Key) (c : LocalCache Key Value)
    (hrem : c.onRemoval = true) (hn : (c.entries.map Entry.key).Nodup) :
    ((run ops c).2.map Prod.fst).count k + ((run ops c).1.entries.map Entry.key).count k
      = freshInserts k ops c + (c.entries.map Entry.key).count k
    ∧ removedMatchRun ops c = true := by
  induction ops generalizing c with
  | nil => exact ⟨by rw [run, freshInserts]; rfl, rfl⟩
  | cons op ops ih =>
      have hrem' : (step op c).1.onRemoval = true := by
        rw [(step_config op c).2]
        exact hrem
      have hn' := nodup_step op c hn
      have hrec := ih (step op c).1 hrem' hn'
      have hstep := step_count k op c hrem
      constructor
      · rw [run, freshInserts]
        dsimp only
        rw [List.map_append, List.count_append]
        omega
      · rw [removedMatchRun, Bool.and_eq_true]
        exact ⟨step_removedMatch op c hn, hrec.2⟩

/-- C4: with a removal listener configured, every entry ever inserted is
reported to the listener exactly once per completed
insertion-to-eviction/invalidation cycle: for every key, the number of
listener invocations carrying that key plus its current live occurrence
(one or zero, the key list being duplicate-free) equals the number of fresh
insertions of that key; and every invocation carries the key/value pair the
cache stored for that key at the moment the entry left. -/
theorem removal_listener_exactly_once (ops : List (Op Key Value)) (k : Key) :
    ((run ops (New [CacheOption.withRemovalListener]
        : LocalCache Key Value)).2.map Prod.fst).count k
      + ((run ops (New [CacheOption.withRemovalListener]
          : LocalCache Key Value)).1.entries.map Entry.key).count k
      = freshInserts k ops (New [CacheOption.withRemovalListener])
    ∧ removedMatchRun ops (New [CacheOption.withRemovalListener]
        : LocalCache Key Value) = true := by
  have h := run_count ops k (New [CacheOption.withRemovalListener] : LocalCache Key Value)
    rfl (by rw [(New_entries _).1]; exact List.nodup_nil)
  refine ⟨?_, h.2⟩
  have h1 := h.1
  rw [(New_entries [CacheOption.withRemovalListener]).1] at h1
  rw [List.map_nil, List.count_nil] at h1
  omega

end ClaimC4
